import Mathlib

/-!
# Verification of the CodeBridge AI chunking and retrieval core

Shallow embedding of `src/embeddings.py` (`EmbeddingEngine`): the paragraph
chunker `chunk_text`, the ingestion pipeline `process_documents`, and the
query service `query`.  Python strings are modelled as `List Char`; Python's
`str.split(sep)`, `sep.join(...)` and `str.replace(old, '')` (leftmost,
non-overlapping occurrence semantics) are modelled by structurally recursive
list functions specialised to the separators the source uses (`"\n\n"` and
`".txt"`).  Python `int` is modelled as `Int`.

The vector store and nearest-neighbour search are provided by the external
`chromadb` library (not part of this repository); those operations are
modelled from the spec where a claim needs them, and are marked as such.
-/

namespace CodeBridge

/-- Python `str` modelled as a list of characters. -/
abbrev PyStr := List Char

/-- Convert a Lean string literal to the `PyStr` model (for concrete inputs). -/
def str (s : String) : PyStr := s.data

/-- The blank-line separator `"\n\n"` used by `chunk_text` (source line 60). -/
def blankSep : PyStr := ['\n', '\n']

/-- Python `text.split('\n\n')` (source line 60): split on leftmost,
non-overlapping occurrences of the two-character separator `"\n\n"`.
Python's `split` on the empty string returns `[""]`, hence the `[[]]` base
case. -/
def splitPar : List Char → List (List Char)
  | [] => [[]]
  | '\n' :: '\n' :: rest => [] :: splitPar rest
  | c :: rest =>
    match splitPar rest with
    | p :: ps => (c :: p) :: ps
    | [] => [[c]]

/-- Python `'\n\n'.join(chunk)` (source lines 70 and 86). -/
def joinPar (ps : List PyStr) : List Char := List.intercalate blankSep ps

/-- The paragraph-accumulation loop of `chunk_text` (source lines 62-88),
with the loop state (`chunks`, `current_chunk`, `current_size`) passed
explicitly.  The final `if current_chunk:` flush is the `[]` case. -/
def chunkLoop (chunk_size overlap : Int) :
    List PyStr → List PyStr → List PyStr → Int → List PyStr
  | [], chunks, current_chunk, _ =>
    if current_chunk = [] then chunks else chunks ++ [joinPar current_chunk]
  | paragraph :: ps, chunks, current_chunk, current_size =>
    let paragraph_size : Int := paragraph.length
    if current_size + paragraph_size > chunk_size then
      if 0 < overlap ∧ 0 < current_chunk.length then
        chunkLoop chunk_size overlap ps (chunks ++ [joinPar current_chunk])
          (current_chunk.getLastI :: [paragraph])
          ((current_chunk.getLastI.length : Int) + paragraph_size)
      else
        chunkLoop chunk_size overlap ps (chunks ++ [joinPar current_chunk])
          [paragraph] paragraph_size
    else
      chunkLoop chunk_size overlap ps chunks (current_chunk ++ [paragraph])
        (current_size + paragraph_size)

/-- Embeds `EmbeddingEngine.chunk_text` (source lines 45-88): split `text` into
paragraphs on `"\n\n"` and accumulate them into chunks of roughly
`chunk_size` characters, seeding each new chunk with the previous chunk's
last paragraph when `overlap > 0`. -/
def chunk_text (text : PyStr) (chunk_size : Int := 500) (overlap : Int := 50) :
    List PyStr :=
  chunkLoop chunk_size overlap (splitPar text) [] [] 0

/-- Whether a character list contains the separator `"\n\n"` as a (contiguous)
substring.  Pieces produced by `splitPar` never do. -/
def hasNL2 : List Char → Bool
  | [] => false
  | '\n' :: '\n' :: _ => true
  | _ :: rest => hasNL2 rest

/-- The chunking loop tracked at buffer granularity: identical control flow
to `chunkLoop`, but each closed chunk is recorded as its paragraph buffer
instead of the joined string. -/
def bufLoop (chunk_size overlap : Int) :
    List PyStr → List (List PyStr) → List PyStr → Int → List (List PyStr)
  | [], bufs, current_chunk, _ =>
    if current_chunk = [] then bufs else bufs ++ [current_chunk]
  | paragraph :: ps, bufs, current_chunk, current_size =>
    let paragraph_size : Int := paragraph.length
    if current_size + paragraph_size > chunk_size then
      if 0 < overlap ∧ 0 < current_chunk.length then
        bufLoop chunk_size overlap ps (bufs ++ [current_chunk])
          (current_chunk.getLastI :: [paragraph])
          ((current_chunk.getLastI.length : Int) + paragraph_size)
      else
        bufLoop chunk_size overlap ps (bufs ++ [current_chunk]) [paragraph] paragraph_size
    else
      bufLoop chunk_size overlap ps bufs (current_chunk ++ [paragraph])
        (current_size + paragraph_size)

/-- The paragraph buffers underlying `chunk_text text`'s chunks. -/
def chunkBuffers (text : PyStr) (chunk_size overlap : Int) : List (List PyStr) :=
  bufLoop chunk_size overlap (splitPar text) [] [] 0

/-- The first paragraph of a chunk (its text split on `"\n\n"`). -/
def firstPar (c : PyStr) : PyStr := (splitPar c).headI

/-- The last paragraph of a chunk (its text split on `"\n\n"`). -/
def lastPar (c : PyStr) : PyStr := (splitPar c).getLastI

/-- Claim C4's property as a boolean check over a chunk list: every
consecutive pair of chunks shares its boundary paragraph. -/
def adjOverlapOK : List PyStr → Bool
  | a :: b :: rest => (lastPar a == firstPar b) && adjOverlapOK (b :: rest)
  | _ => true

/-- Claim C5's reconstruction: concatenate all chunks' paragraph sequences,
dropping the first (overlap-duplicated) paragraph of every chunk after the
first when `overlap > 0`. -/
def reconstruct (ov : Int) : List PyStr → List PyStr
  | [] => []
  | c :: rest =>
    splitPar c ++
      (rest.map (fun d => if 0 < ov then (splitPar d).tail else splitPar d)).flatten

/-- Buffer-level counterpart of `reconstruct`. -/
def dedupBufs (ov : Int) : List (List PyStr) → List PyStr
  | [] => []
  | b :: rest => b ++ (rest.map (fun d => if 0 < ov then d.tail else d)).flatten

/-- Overlap adjacency between consecutive buffers: when `overlap > 0` and
the closed buffer was nonempty, the next buffer is nonempty and starts with
the closed buffer's last paragraph. -/
def AdjR (ov : Int) (a b : List PyStr) : Prop :=
  (0 < ov ∧ a ≠ []) → b ≠ [] ∧ b.headI = a.getLastI

/-- A buffer whose join splits back into exactly its paragraphs: all
elements separator-free, and none but the last ending in a newline. -/
def goodBuf (b : List PyStr) : Prop :=
  (∀ x ∈ b, hasNL2 x = false) ∧ ∀ x ∈ b.dropLast, x.getLast? ≠ some '\n'

/-- Chunk metadata `{"source": filename, "chunk": i}` (source line 121). -/
structure ChunkMeta where
  source : PyStr
  chunk : Nat
deriving DecidableEq

/-- Embedding vectors, modelled as integer lists (the real system obtains
float vectors from an external model; only their comparison structure
matters for the claims). -/
abbrev Vec := List Int

/-- A stored embedding record `(id, vector, text, metadata)` (spec §3). -/
structure Record where
  id : PyStr
  vec : Vec
  text : PyStr
  meta : ChunkMeta
deriving DecidableEq

/-- Python `filename.replace('.txt', '')` (source line 118): remove all
leftmost non-overlapping occurrences of `".txt"`. -/
def removeTxt : List Char → List Char
  | '.' :: 't' :: 'x' :: 't' :: rest => removeTxt rest
  | c :: rest => c :: removeTxt rest
  | [] => []

/-- Computes `chunk_id` as in source line 118: the filename with every
`".txt"` removed, an underscore, then the decimal chunk index. -/
def chunk_id (filename : PyStr) (i : Nat) : PyStr :=
  removeTxt filename ++ '_' :: (toString i).data

/-- The `(id, text, metadata)` batch built by `process_documents` (source
lines 103-121): every document is chunked with the default parameters and
its chunks are emitted in order with deterministic ids. -/
def buildBatch (docs : List (PyStr × PyStr)) : List (PyStr × PyStr × ChunkMeta) :=
  (docs.map (fun doc =>
    (chunk_text doc.2).enum.map
      (fun ic => (chunk_id doc.1 ic.1, ic.2, ChunkMeta.mk doc.1 ic.1)))).flatten

/-- Modelled from the spec: the Vector Store's `add` of a single record —
the store is the external `chromadb` collection, absent from the source.
Spec §4.3: "re-adding an existing id overwrites the prior
vector/text/metadata"; a fresh id is appended in insertion order. -/
def upsertOne (store : List Record) (r : Record) : List Record :=
  if store.any (fun e => e.id = r.id) then
    store.map (fun e => if e.id = r.id then r else e)
  else
    store ++ [r]

/-- Modelled from the spec: Vector Store `add` over a batch of records
(spec §4.3), upserting in order. -/
def storeAdd (store : List Record) (recs : List Record) : List Record :=
  recs.foldl upsertOne store

/-- Vector Store `count()` (spec §4.3): the number of stored records. -/
def storeCount (store : List Record) : Nat := store.length

/-- The ids currently present in a store, in insertion order. -/
def idsOf (store : List Record) : List PyStr := store.map Record.id

/-- Embeds `EmbeddingEngine.process_documents` (source lines 90-136): build the
id/text/metadata batch over all documents, embed all texts in one batch
call, then add all records to the store in one call.  The embedder is a
parameter and may fail (spec §4.2, `EmbeddingUnavailable`); the early
return on an empty document list is source lines 97-99.  The store state is
passed explicitly; on an embedding error the store is returned unchanged
because the single `collection.add` (source line 129) is never reached. -/
def process_documents (embedB : List PyStr → Except Unit (List Vec))
    (docs : List (PyStr × PyStr)) (store : List Record) :
    Except Unit Unit × List Record :=
  if docs.isEmpty then (Except.ok (), store)
  else
    let batch := buildBatch docs
    let all_texts := batch.map (fun b => b.2.1)
    match embedB all_texts with
    | Except.error e => (Except.error e, store)
    | Except.ok vecs =>
      let recs := (batch.zip vecs).map
        (fun bv => Record.mk bv.1.1 bv.2 bv.1.2.1 bv.1.2.2)
      (Except.ok (), storeAdd store recs)

/-- Squared Euclidean distance between two vectors: the dissimilarity score
of the modelled store (spec §3: "distance is a non-negative dissimilarity
score (lower = more relevant)"). -/
def sqDist (a b : Vec) : Int := ((a.zip b).map (fun p => (p.1 - p.2) ^ 2)).sum

/-- Ranking relation for search: ascending distance to the query vector,
ties broken by insertion index (spec §4.3: "ties broken by insertion order
(stable)"). -/
def rankLe (q : Vec) (a b : Nat × Record) : Prop :=
  sqDist q a.2.vec < sqDist q b.2.vec ∨
    (sqDist q a.2.vec = sqDist q b.2.vec ∧ a.1 ≤ b.1)

instance rankLe.decRel (q : Vec) : DecidableRel (rankLe q) := fun _ _ => by
  unfold rankLe
  infer_instance

instance rankLe.total (q : Vec) : IsTotal (Nat × Record) (rankLe q) := by
  constructor
  intro a b
  unfold rankLe
  rcases lt_trichotomy (sqDist q a.2.vec) (sqDist q b.2.vec) with h | h | h
  · exact Or.inl (Or.inl h)
  · rcases Nat.le_total a.1 b.1 with hn | hn
    · exact Or.inl (Or.inr ⟨h, hn⟩)
    · exact Or.inr (Or.inr ⟨h.symm, hn⟩)
  · exact Or.inr (Or.inl h)

instance rankLe.trans (q : Vec) : IsTrans (Nat × Record) (rankLe q) := by
  constructor
  intro a b c hab hbc
  unfold rankLe at hab hbc ⊢
  rcases hab with h1 | ⟨h1, h1n⟩ <;> rcases hbc with h2 | ⟨h2, h2n⟩
  · exact Or.inl (h1.trans h2)
  · exact Or.inl (h2 ▸ h1)
  · exact Or.inl (h1 ▸ h2)
  · exact Or.inr ⟨h1.trans h2, h1n.trans h2n⟩

/-- Modelled from the spec: Vector Store `search` (spec §4.3) — chromadb's
nearest-neighbour query is external code.  Records, tagged with their
insertion index, are ordered by ascending distance to the query vector
(ties by insertion index: a stable ranking) and truncated to `k` results.
An empty store yields an empty sequence (spec §4.3: "`EmptyStoreError`
semantics represented as an empty sequence (not an exception)"). -/
def storeSearch (store : List Record) (q : Vec) (k : Int) : List (Nat × Record) :=
  (List.insertionSort (rankLe q) store.enum).take k.toNat

/-- A formatted query result `{id, text, metadata, distance}`
(source lines 160-166). -/
structure QueryResult where
  id : PyStr
  text : PyStr
  metadata : ChunkMeta
  distance : Int
deriving DecidableEq

/-- Embeds `EmbeddingEngine.query` (source lines 138-168): embed the question,
run the store's nearest-neighbour search with `n_results` forwarded
unchanged (the source performs no validation of `n_results`), and format
each returned record as `{id, text, metadata, distance}`, preserving
order. -/
def query (embedOne : PyStr → Vec) (store : List Record) (question : PyStr)
    (n_results : Int) : List QueryResult :=
  let question_embedding := embedOne question
  (storeSearch store question_embedding n_results).map
    (fun ir => QueryResult.mk ir.2.id ir.2.text ir.2.meta
      (sqDist question_embedding ir.2.vec))

theorem hasNL2_nlnl (l : List Char) : hasNL2 ('\n' :: '\n' :: l) = true := by
  simp [hasNL2]

theorem splitPar_ne_nil (l : List Char) : splitPar l ≠ [] := by
  induction l using splitPar.induct with
  | case1 => simp [splitPar]
  | case2 rest ih => simp [splitPar]
  | case3 c rest hside p ps hrest ih =>
    rw [splitPar.eq_3 c rest hside, hrest]
    simp
  | case4 c rest hside hrest ih =>
    rw [splitPar.eq_3 c rest hside, hrest]
    simp

/-- A nonempty first piece of `splitPar l` starts with the first character
of `l`. -/
theorem splitPar_head_eq (l : List Char) (p : List Char) (ps : List (List Char))
    (h : splitPar l = p :: ps) (c : Char) (hc : p.head? = some c) :
    l.head? = some c := by
  induction l using splitPar.induct with
  | case1 =>
    rw [splitPar.eq_1] at h
    injection h with h1 h2
    subst h1
    simp at hc
  | case2 rest ih =>
    rw [splitPar.eq_2] at h
    injection h with h1 h2
    subst h1
    simp at hc
  | case3 c' rest hside p' ps' hrest ih =>
    rw [splitPar.eq_3 c' rest hside, hrest] at h
    injection h with h1 h2
    subst h1
    simpa using hc
  | case4 c' rest hside hrest ih =>
    exact absurd hrest (splitPar_ne_nil rest)

/-- Every piece produced by `splitPar` is free of the separator. -/
theorem hasNL2_splitPar (l : List Char) : ∀ p ∈ splitPar l, hasNL2 p = false := by
  induction l using splitPar.induct with
  | case1 =>
    intro p hp
    rw [splitPar.eq_1] at hp
    simp at hp
    subst hp
    simp [hasNL2]
  | case2 rest ih =>
    intro p hp
    rw [splitPar.eq_2] at hp
    rcases List.mem_cons.mp hp with h | h
    · subst h; simp [hasNL2]
    · exact ih p h
  | case3 c rest hside p' ps' hrest ih =>
    intro p hp
    rw [splitPar.eq_3 c rest hside, hrest] at hp
    rcases List.mem_cons.mp hp with h | h
    · subst h
      have hp' : hasNL2 p' = false := ih p' (by rw [hrest]; exact List.mem_cons_self _ _)
      have hside2 : ∀ (r : List Char), c = '\n' → p' = '\n' :: r → False := by
        intro r hc hr
        have hh : p'.head? = some '\n' := by rw [hr]; rfl
        have hrh : rest.head? = some '\n' := splitPar_head_eq rest p' ps' hrest '\n' hh
        rcases rest with _ | ⟨d, rest'⟩
        · simp at hrh
        · simp at hrh
          exact hside rest' hc (by rw [hrh])
      rw [hasNL2.eq_3 c p' hside2]
      exact hp'
    · exact ih p (by rw [hrest]; exact List.mem_cons_of_mem _ h)
  | case4 c rest hside hrest ih =>
    exact absurd hrest (splitPar_ne_nil rest)

/-- If the first piece of `splitPar l` is empty and there are further pieces,
then `l` starts with a newline (in fact with the separator). -/
theorem splitPar_empty_head (l : List Char) (p2 : List Char) (ps : List (List Char))
    (h : splitPar l = [] :: p2 :: ps) : ∃ r, l = '\n' :: r := by
  induction l using splitPar.induct with
  | case1 =>
    rw [splitPar.eq_1] at h
    injection h with h1 h2
    simp at h2
  | case2 rest ih => exact ⟨'\n' :: rest, rfl⟩
  | case3 c rest hside p' ps' hrest ih =>
    rw [splitPar.eq_3 c rest hside, hrest] at h
    injection h with h1 h2
    simp at h1
  | case4 c rest hside hrest ih =>
    exact absurd hrest (splitPar_ne_nil rest)

/-- Every piece of `splitPar l` except the last does not end with `'\n'`
(a piece followed by the separator cannot end with a newline, by leftmost
matching). -/
theorem splitPar_dropLast_getLast (l : List Char) :
    ∀ p ∈ (splitPar l).dropLast, p.getLast? ≠ some '\n' := by
  induction l using splitPar.induct with
  | case1 =>
    rw [splitPar.eq_1]
    simp
  | case2 rest ih =>
    intro p hp
    rw [splitPar.eq_2] at hp
    rcases hsp : splitPar rest with _ | ⟨q, qs⟩
    · exact absurd hsp (splitPar_ne_nil rest)
    · rw [hsp, List.dropLast_cons₂] at hp
      rcases List.mem_cons.mp hp with h | h
      · subst h; simp
      · exact ih p (by rw [hsp]; exact h)
  | case3 c rest hside p' ps' hrest ih =>
    intro p hp
    rw [splitPar.eq_3 c rest hside, hrest] at hp
    rcases ps' with _ | ⟨q, qs⟩
    · simp at hp
    · rw [List.dropLast_cons₂] at hp
      rcases List.mem_cons.mp hp with h | h
      · subst h
        rcases p' with _ | ⟨e, p''⟩
        · -- first piece of `splitPar rest` empty with further pieces:
          -- `rest` starts with a newline, so the guard forces `c ≠ '\n'`.
          have hc : c ≠ '\n' := by
            intro hc
            obtain ⟨r, hr⟩ := splitPar_empty_head rest q qs hrest
            exact hside r hc hr
          simpa using hc
        · have : (e :: p'') ∈ (splitPar rest).dropLast := by
            rw [hrest, List.dropLast_cons₂]
            exact List.mem_cons_self _ _
          rw [List.getLast?_cons_cons]
          exact ih (e :: p'') this
      · exact ih p (by rw [hrest, List.dropLast_cons₂]; exact List.mem_cons_of_mem _ h)
  | case4 c rest hside hrest ih =>
    exact absurd hrest (splitPar_ne_nil rest)

/-- A separator-free list is returned whole by `splitPar`. -/
theorem splitPar_of_hasNL2_eq_false (p : List Char) (h : hasNL2 p = false) :
    splitPar p = [p] := by
  induction p using splitPar.induct with
  | case1 => rw [splitPar.eq_1]
  | case2 rest ih => simp [hasNL2] at h
  | case3 c rest hside p' ps' hrest ih =>
    have h' : hasNL2 rest = false := by rwa [hasNL2.eq_3 c rest hside] at h
    rw [splitPar.eq_3 c rest hside, ih h']
  | case4 c rest hside hrest ih =>
    exact absurd hrest (splitPar_ne_nil rest)

/-- Splitting after appending a separator-free prefix `a` (not ending in a
newline) followed by the separator: the prefix comes off as one piece. -/
theorem splitPar_append (a rest : List Char) (hfree : hasNL2 a = false)
    (hend : a.getLast? ≠ some '\n') :
    splitPar (a ++ '\n' :: '\n' :: rest) = a :: splitPar rest := by
  induction a with
  | nil => rw [List.nil_append, splitPar.eq_2]
  | cons c a ih =>
    by_cases hc : c = '\n'
    · subst hc
      rcases a with _ | ⟨d, a2⟩
      · simp at hend
      · have hd : d ≠ '\n' := by
          intro hd
          subst hd
          simp [hasNL2] at hfree
        have hfree2 : hasNL2 (d :: a2) = false := by
          have hside : ∀ (r : List Char), ('\n' : Char) = '\n' → d :: a2 = '\n' :: r → False := by
            intro r _ hr
            injection hr with h1 _
            exact hd h1
          rwa [hasNL2.eq_3 _ _ hside] at hfree
        have hend2 : (d :: a2).getLast? ≠ some '\n' := by
          rwa [List.getLast?_cons_cons] at hend
        have hside1 : ∀ (r : List Char), ('\n' : Char) = '\n' →
            (d :: a2) ++ '\n' :: '\n' :: rest = '\n' :: r → False := by
          intro r _ hr
          rw [List.cons_append] at hr
          injection hr with h1 _
          exact hd h1
        rw [List.cons_append, splitPar.eq_3 _ _ hside1, ih hfree2 hend2]
    · have hside1 : ∀ (r : List Char), c = '\n' →
          a ++ '\n' :: '\n' :: rest = '\n' :: r → False :=
        fun _ hcc _ => hc hcc
      rw [List.cons_append, splitPar.eq_3 _ _ hside1]
      rcases a with _ | ⟨d, a2⟩
      · rw [List.nil_append, splitPar.eq_2]
      · have hfree2 : hasNL2 (d :: a2) = false := by
          have hside : ∀ (r : List Char), c = '\n' → d :: a2 = '\n' :: r → False :=
            fun _ hcc _ => hc hcc
          rwa [hasNL2.eq_3 _ _ hside] at hfree
        have hend2 : (d :: a2).getLast? ≠ some '\n' := by
          rwa [List.getLast?_cons_cons] at hend
        rw [ih hfree2 hend2]

/-- Round trip: joining a nonempty list of separator-free paragraphs (none of
which, except possibly the last, ends in a newline) and re-splitting recovers
exactly that list. -/
theorem splitPar_joinPar (bufs : List (List Char)) (hne : bufs ≠ [])
    (hfree : ∀ x ∈ bufs, hasNL2 x = false)
    (hend : ∀ x ∈ bufs.dropLast, x.getLast? ≠ some '\n') :
    splitPar (joinPar bufs) = bufs := by
  induction bufs with
  | nil => exact absurd rfl hne
  | cons b bs ih =>
    rcases bs with _ | ⟨b2, bs2⟩
    · have hj : joinPar [b] = b := by simp [joinPar, List.intercalate]
      rw [hj]
      exact splitPar_of_hasNL2_eq_false b (hfree b (by simp))
    · have hj : joinPar (b :: b2 :: bs2) = b ++ '\n' :: '\n' :: joinPar (b2 :: bs2) := by
        simp [joinPar, blankSep, List.intercalate, List.intersperse]
      have h1 : hasNL2 b = false := hfree b (by simp)
      have h2 : b.getLast? ≠ some '\n' := by
        apply hend
        rw [List.dropLast_cons₂]
        exact List.mem_cons_self _ _
      rw [hj, splitPar_append b (joinPar (b2 :: bs2)) h1 h2]
      rw [ih (by simp) (fun x hx => hfree x (List.mem_cons_of_mem _ hx))
          (fun x hx => hend x (by rw [List.dropLast_cons₂]; exact List.mem_cons_of_mem _ hx))]

theorem chunkLoop_eq_bufLoop (cs ov : Int) (ps : List PyStr) :
    ∀ bufs cur size, chunkLoop cs ov ps (bufs.map joinPar) cur size =
      (bufLoop cs ov ps bufs cur size).map joinPar := by
  induction ps with
  | nil =>
    intro bufs cur size
    by_cases h : cur = []
    · simp [chunkLoop, bufLoop, h]
    · simp [chunkLoop, bufLoop, h]
  | cons p ps ih =>
    intro bufs cur size
    simp only [chunkLoop, bufLoop]
    by_cases h1 : size + (p.length : Int) > cs
    · rw [if_pos h1, if_pos h1]
      by_cases h2 : 0 < ov ∧ 0 < cur.length
      · rw [if_pos h2, if_pos h2,
          show bufs.map joinPar ++ [joinPar cur] = (bufs ++ [cur]).map joinPar by simp]
        exact ih _ _ _
      · rw [if_neg h2, if_neg h2,
          show bufs.map joinPar ++ [joinPar cur] = (bufs ++ [cur]).map joinPar by simp]
        exact ih _ _ _
    · rw [if_neg h1, if_neg h1]
      exact ih _ _ _

/-- The function `chunk_text` produces exactly the joins of the paragraph buffers. -/
theorem chunk_text_eq_buffers (text : PyStr) (cs ov : Int) :
    chunk_text text cs ov = (chunkBuffers text cs ov).map joinPar := by
  have h := chunkLoop_eq_bufLoop cs ov (splitPar text) [] [] 0
  simpa [chunk_text, chunkBuffers] using h

theorem chunkLoop_overlap_congr (cs ov1 ov2 : Int) (hov : 0 < ov1 ↔ 0 < ov2)
    (ps : List PyStr) :
    ∀ chunks cur size, chunkLoop cs ov1 ps chunks cur size =
      chunkLoop cs ov2 ps chunks cur size := by
  induction ps with
  | nil => intro chunks cur size; rfl
  | cons p ps ih =>
    intro chunks cur size
    simp only [chunkLoop]
    by_cases h1 : size + (p.length : Int) > cs
    · rw [if_pos h1, if_pos h1]
      by_cases h2 : 0 < ov1 ∧ 0 < cur.length
      · rw [if_pos h2, if_pos ⟨hov.mp h2.1, h2.2⟩]
        exact ih _ _ _
      · rw [if_neg h2, if_neg (fun hh => h2 ⟨hov.mpr hh.1, hh.2⟩)]
        exact ih _ _ _
    · rw [if_neg h1, if_neg h1]
      exact ih _ _ _

/-- C10: the output of `chunk_text` depends on `overlap` only through its
sign: any two overlap values that agree on whether they are positive yield
identical chunk sequences; the magnitude of `overlap` never affects the
result (the source reads `overlap` only in the test `overlap > 0`,
lines 73-79). -/
theorem chunk_text_overlap_only_sign (text : PyStr) (cs ov1 ov2 : Int)
    (hov : 0 < ov1 ↔ 0 < ov2) :
    chunk_text text cs ov1 = chunk_text text cs ov2 :=
  chunkLoop_overlap_congr cs ov1 ov2 hov (splitPar text) [] [] 0

/-- Witness for C10 at a concrete input: overlaps `50` and `1` (both
positive, different magnitudes) chunk a concrete two-paragraph text
identically. -/
theorem chunk_text_overlap_only_sign_witness :
    ((0 : Int) < 50 ↔ (0 : Int) < 1) ∧
      chunk_text (str "aaa\n\nbbb\n\nccc") 7 50 = chunk_text (str "aaa\n\nbbb\n\nccc") 7 1 :=
  ⟨by decide, chunk_text_overlap_only_sign (str "aaa\n\nbbb\n\nccc") 7 50 1 (by decide)⟩

/-- C2 counterexample: on the empty string (with the source's default
parameters) `chunk_text` returns the one-element list containing the empty
chunk — Python's `''.split('\n\n')` is `['']` — not the empty sequence the
claim states. -/
theorem chunk_text_empty_not_nil : chunk_text (str "") 500 50 ≠ [] := by decide

/-- C2 (amended): for the empty string and any `chunk_size ≥ 0` (the
default included), `chunk_text` returns the single-element sequence
containing the empty chunk, for every overlap value. -/
theorem chunk_text_empty (cs ov : Int) (hcs : 0 ≤ cs) :
    chunk_text [] cs ov = [[]] := by
  unfold chunk_text
  rw [splitPar.eq_1]
  simp only [chunkLoop]
  rw [if_neg (by simp; omega)]
  simp [chunkLoop, joinPar, List.intercalate]

/-- Witness for C2 (amended) at the default parameters. -/
theorem chunk_text_empty_witness :
    (0 : Int) ≤ 500 ∧ chunk_text [] 500 50 = [[]] :=
  ⟨by decide, chunk_text_empty 500 50 (by decide)⟩

/-- C3 counterexample: a text consisting of the single paragraph `"abc"`
with `chunk_size = 2` is NOT returned as the only chunk: the source first
flushes the empty initial buffer (`'\n\n'.join([])`), producing an empty
chunk before the oversized paragraph. -/
theorem chunk_text_single_oversized_cex :
    splitPar (str "abc") = [str "abc"] ∧ ((str "abc").length : Int) > 2 ∧
      chunk_text (str "abc") 2 50 ≠ [str "abc"] := by decide

/-- C3 (amended): a text consisting of a single paragraph longer than
`chunk_size` is never split mid-paragraph — the paragraph appears intact as
a chunk — but it is preceded by an empty chunk flushed from the empty
initial buffer: the result is `["", text]`, not `[text]`. -/
theorem chunk_text_single_oversized (text : PyStr) (cs ov : Int)
    (hpar : splitPar text = [text]) (hlen : (text.length : Int) > cs) :
    chunk_text text cs ov = [[], text] := by
  unfold chunk_text
  rw [hpar]
  simp only [chunkLoop]
  rw [if_pos (by simpa using hlen), if_neg (by simp)]
  simp [chunkLoop, joinPar, List.intercalate]

/-- Witness for C3 (amended) at the concrete oversized paragraph `"abc"`. -/
theorem chunk_text_single_oversized_witness :
    splitPar (str "abc") = [str "abc"] ∧ ((str "abc").length : Int) > 2 ∧
      chunk_text (str "abc") 2 50 = [[], str "abc"] :=
  ⟨by decide, by decide, chunk_text_single_oversized (str "abc") 2 50 (by decide) (by decide)⟩

theorem getLastI_mem (l : List PyStr) (h : l ≠ []) : l.getLastI ∈ l := by
  rw [List.getLastI_eq_getLast?]
  rcases hl : l.getLast? with _ | a
  · rw [List.getLast?_eq_none_iff] at hl
    exact absurd hl h
  · simpa using List.mem_of_getLast?_eq_some hl

theorem joinPar_nil : joinPar [] = [] := rfl

/-- The buffers produced by the chunking loop are linked by the overlap
adjacency relation. -/
theorem bufLoop_adj (cs ov : Int) (ps : List PyStr) :
    ∀ bufs cur size,
      List.Chain' (AdjR ov) bufs →
      (∀ lb ∈ bufs.getLast?, AdjR ov lb cur) →
      List.Chain' (AdjR ov) (bufLoop cs ov ps bufs cur size) := by
  induction ps with
  | nil =>
    intro bufs cur size hchain hlink
    simp only [bufLoop]
    by_cases h : cur = []
    · rw [if_pos h]; exact hchain
    · rw [if_neg h]
      rw [List.chain'_append]
      refine ⟨hchain, List.chain'_singleton _, fun x hx y hy => ?_⟩
      simp at hy
      subst hy
      exact hlink x hx
  | cons p ps ih =>
    intro bufs cur size hchain hlink
    simp only [bufLoop]
    by_cases h1 : size + (p.length : Int) > cs
    · rw [if_pos h1]
      have hchain' : List.Chain' (AdjR ov) (bufs ++ [cur]) := by
        rw [List.chain'_append]
        refine ⟨hchain, List.chain'_singleton _, fun x hx y hy => ?_⟩
        simp at hy
        subst hy
        exact hlink x hx
      by_cases h2 : 0 < ov ∧ 0 < cur.length
      · rw [if_pos h2]
        apply ih _ _ _ hchain'
        intro lb hlb
        rw [List.getLast?_concat] at hlb
        simp at hlb
        subst hlb
        intro _
        exact ⟨by simp, rfl⟩
      · rw [if_neg h2]
        apply ih _ _ _ hchain'
        intro lb hlb
        rw [List.getLast?_concat] at hlb
        simp at hlb
        subst hlb
        intro hcontra
        exact absurd ⟨hcontra.1, List.length_pos.mpr hcontra.2⟩ h2
    · rw [if_neg h1]
      apply ih _ _ _ hchain
      intro lb hlb
      intro hc
      obtain ⟨hne, hhead⟩ := hlink lb hlb hc
      refine ⟨by simp, ?_⟩
      rcases cur with _ | ⟨c0, ct⟩
      · exact absurd rfl hne
      · simpa using hhead

/-- Every buffer produced by the chunking loop is good, provided the
pending paragraphs and current buffer satisfy the splitting invariants. -/
theorem bufLoop_good (cs ov : Int) (ps : List PyStr) :
    ∀ bufs cur size,
      (∀ x ∈ cur ++ ps, hasNL2 x = false) →
      (∀ x ∈ (cur ++ ps).dropLast, x.getLast? ≠ some '\n') →
      (∀ b ∈ bufs, goodBuf b) →
      ∀ b ∈ bufLoop cs ov ps bufs cur size, goodBuf b := by
  induction ps with
  | nil =>
    intro bufs cur size h1 h2 h3
    simp only [bufLoop]
    by_cases h : cur = []
    · rw [if_pos h]; exact h3
    · rw [if_neg h]
      intro b hb
      rcases List.mem_append.mp hb with hb | hb
      · exact h3 b hb
      · simp at hb
        subst hb
        refine ⟨fun x hx => h1 x (by simpa using hx), fun x hx => h2 x ?_⟩
        rw [List.append_nil]
        exact hx
  | cons p ps ih =>
    intro bufs cur size h1 h2 h3
    simp only [bufLoop]
    by_cases hc1 : size + (p.length : Int) > cs
    · rw [if_pos hc1]
      have hcur_free : ∀ x ∈ cur, hasNL2 x = false :=
        fun x hx => h1 x (List.mem_append_left _ hx)
      have hcur_end : ∀ x ∈ cur, x.getLast? ≠ some '\n' := by
        intro x hx
        apply h2
        rw [List.dropLast_append_of_ne_nil _ (by simp)]
        exact List.mem_append_left _ hx
      have hgood_cur : goodBuf cur :=
        ⟨hcur_free, fun x hx => hcur_end x (List.dropLast_subset _ hx)⟩
      have h3' : ∀ b ∈ bufs ++ [cur], goodBuf b := by
        intro b hb
        rcases List.mem_append.mp hb with hb | hb
        · exact h3 b hb
        · simp at hb
          subst hb
          exact hgood_cur
      by_cases hc2 : 0 < ov ∧ 0 < cur.length
      · rw [if_pos hc2]
        have hcne : cur ≠ [] := by
          intro hnil
          rw [hnil] at hc2
          simp at hc2
        apply ih _ _ _ ?free ?ends h3'
        case free =>
          intro x hx
          simp only [List.cons_append, List.singleton_append] at hx
          rcases List.mem_cons.mp hx with hx | hx
          · subst hx
            exact hcur_free _ (getLastI_mem cur hcne)
          · exact h1 x (List.mem_append_right _ hx)
        case ends =>
          intro x hx
          simp only [List.cons_append, List.singleton_append, List.dropLast_cons₂] at hx
          rcases List.mem_cons.mp hx with hx | hx
          · subst hx
            exact hcur_end _ (getLastI_mem cur hcne)
          · apply h2
            rw [List.dropLast_append_of_ne_nil _ (by simp)]
            exact List.mem_append_right _ hx
      · rw [if_neg hc2]
        apply ih _ _ _ ?free2 ?ends2 h3'
        case free2 =>
          intro x hx
          simp only [List.singleton_append] at hx
          exact h1 x (List.mem_append_right _ hx)
        case ends2 =>
          intro x hx
          simp only [List.singleton_append] at hx
          apply h2
          rw [List.dropLast_append_of_ne_nil _ (by simp)]
          exact List.mem_append_right _ hx
    · rw [if_neg hc1]
      have hassoc : cur ++ p :: ps = (cur ++ [p]) ++ ps := by simp
      apply ih _ _ _ ?fr ?en h3
      case fr =>
        intro x hx
        apply h1
        rw [hassoc]
        exact hx
      case en =>
        intro x hx
        apply h2
        rw [hassoc]
        exact hx

/-- If the running buffer is nonempty, every buffer the loop ever emits is
nonempty. -/
theorem bufLoop_ne_nil (cs ov : Int) (ps : List PyStr) :
    ∀ bufs cur size, cur ≠ [] → (∀ b ∈ bufs, b ≠ []) →
      ∀ b ∈ bufLoop cs ov ps bufs cur size, b ≠ [] := by
  induction ps with
  | nil =>
    intro bufs cur size hcur hbufs
    simp only [bufLoop]
    rw [if_neg hcur]
    intro b hb
    rcases List.mem_append.mp hb with hb | hb
    · exact hbufs b hb
    · simp at hb
      subst hb
      exact hcur
  | cons p ps ih =>
    intro bufs cur size hcur hbufs
    simp only [bufLoop]
    have hbufs' : ∀ b ∈ bufs ++ [cur], b ≠ [] := by
      intro b hb
      rcases List.mem_append.mp hb with hb | hb
      · exact hbufs b hb
      · simp at hb
        subst hb
        exact hcur
    by_cases h1 : size + (p.length : Int) > cs
    · rw [if_pos h1]
      by_cases h2 : 0 < ov ∧ 0 < cur.length
      · rw [if_pos h2]
        exact ih _ _ _ (by simp) hbufs'
      · rw [if_neg h2]
        exact ih _ _ _ (by simp) hbufs'
    · rw [if_neg h1]
      exact ih _ _ _ (by simp) hbufs

theorem dedupBufs_concat (ov : Int) (bufs : List (List PyStr)) (b : List PyStr) :
    dedupBufs ov (bufs ++ [b]) =
      dedupBufs ov bufs ++
        (if bufs = [] then b else if 0 < ov then b.tail else b) := by
  rcases bufs with _ | ⟨x, rest⟩
  · simp [dedupBufs]
  · rw [if_neg (by simp)]
    simp only [List.cons_append, dedupBufs, List.map_append, List.flatten_append]
    simp [List.append_assoc]

/-- As long as the running buffer is nonempty, the loop's final deduplicated
paragraph sequence is the deduplication of the buffers so far followed by
the still-pending paragraphs. -/
theorem bufLoop_dedup (cs ov : Int) (ps : List PyStr) :
    ∀ bufs cur size, cur ≠ [] →
      dedupBufs ov (bufLoop cs ov ps bufs cur size) =
        dedupBufs ov (bufs ++ [cur]) ++ ps := by
  induction ps with
  | nil =>
    intro bufs cur size hcur
    simp only [bufLoop]
    rw [if_neg hcur, List.append_nil]
  | cons p ps ih =>
    intro bufs cur size hcur
    simp only [bufLoop]
    by_cases h1 : size + (p.length : Int) > cs
    · rw [if_pos h1]
      by_cases h2 : 0 < ov ∧ 0 < cur.length
      · rw [if_pos h2, ih _ _ _ (by simp), dedupBufs_concat, if_neg (by simp),
          if_pos h2.1]
        simp
      · have hov : ¬ 0 < ov := by
          intro hov
          exact h2 ⟨hov, List.length_pos.mpr hcur⟩
        rw [if_neg h2, ih _ _ _ (by simp), dedupBufs_concat, if_neg (by simp),
          if_neg hov]
        simp
    · rw [if_neg h1, ih _ _ _ (by simp), dedupBufs_concat, dedupBufs_concat]
      by_cases hb : bufs = []
      · rw [if_pos hb, if_pos hb]
        simp
      · rw [if_neg hb, if_neg hb]
        by_cases hov : 0 < ov
        · rw [if_pos hov, if_pos hov]
          rcases cur with _ | ⟨c0, ct⟩
          · exact absurd rfl hcur
          · simp
        · rw [if_neg hov, if_neg hov]
          simp

/-- Applying `reconstruct` to joined chunks agrees with `dedupBufs` over the
underlying buffers, provided every buffer round-trips through the split. -/
theorem reconstruct_map_joinPar (ov : Int) (bufs : List (List PyStr))
    (h : ∀ b ∈ bufs, splitPar (joinPar b) = b) :
    reconstruct ov (bufs.map joinPar) = dedupBufs ov bufs := by
  rcases bufs with _ | ⟨b, rest⟩
  · rfl
  · simp only [List.map_cons, reconstruct, dedupBufs]
    rw [h b (by simp)]
    congr 1
    rw [List.map_map]
    congr 1
    apply List.map_congr_left
    intro d hd
    rw [Function.comp_apply, h d (List.mem_cons_of_mem _ hd)]

/-- C4 counterexample: with `overlap = 1 > 0` the text `"abc"` and
`chunk_size = 2` yield the two chunks `["", "abc"]`; the last paragraph of
chunk 0 (the empty string) differs from the first paragraph of chunk 1
(`"abc"`), so the claimed property fails for this consecutive pair. -/
theorem chunk_overlap_cex :
    (0 : Int) < 1 ∧ 2 ≤ (chunk_text (str "abc") 2 1).length ∧
      adjOverlapOK (chunk_text (str "abc") 2 1) = false := by decide

/-- C4 (amended): when `overlap > 0`, for every consecutive pair of chunks
in which chunk `i` is nonempty, the last paragraph of chunk `i` equals the
first paragraph of chunk `i + 1`.  (The hypothesis excludes only the empty
chunk flushed when the very first paragraph already exceeds `chunk_size`,
for which the property fails — see the counterexample.) -/
theorem chunk_overlap_correct (text : PyStr) (cs ov : Int) (hov : 0 < ov)
    (i : Nat) (h : i + 1 < (chunk_text text cs ov).length)
    (hne : (chunk_text text cs ov).get ⟨i, Nat.lt_of_succ_lt h⟩ ≠ []) :
    lastPar ((chunk_text text cs ov).get ⟨i, Nat.lt_of_succ_lt h⟩) =
      firstPar ((chunk_text text cs ov).get ⟨i + 1, h⟩) := by
  have hb := chunk_text_eq_buffers text cs ov
  have hchain : List.Chain' (AdjR ov) (chunkBuffers text cs ov) := by
    apply bufLoop_adj
    · exact List.chain'_nil
    · intro lb hlb
      simp at hlb
  have hgood : ∀ b ∈ chunkBuffers text cs ov, goodBuf b := by
    apply bufLoop_good
    · intro x hx
      exact hasNL2_splitPar text x (by simpa using hx)
    · intro x hx
      exact splitPar_dropLast_getLast text x (by simpa using hx)
    · intro b hb
      simp at hb
  have hlen : (chunk_text text cs ov).length = (chunkBuffers text cs ov).length := by
    rw [hb, List.length_map]
  have hi1 : i < (chunkBuffers text cs ov).length := by omega
  have hi2 : i + 1 < (chunkBuffers text cs ov).length := by omega
  have hgeti : (chunk_text text cs ov).get ⟨i, Nat.lt_of_succ_lt h⟩ =
      joinPar ((chunkBuffers text cs ov).get ⟨i, hi1⟩) := by
    rw [List.get_of_eq hb ⟨i, Nat.lt_of_succ_lt h⟩]
    simp [List.get_eq_getElem, List.getElem_map]
  have hgeti1 : (chunk_text text cs ov).get ⟨i + 1, h⟩ =
      joinPar ((chunkBuffers text cs ov).get ⟨i + 1, hi2⟩) := by
    rw [List.get_of_eq hb ⟨i + 1, h⟩]
    simp [List.get_eq_getElem, List.getElem_map]
  have hBine : (chunkBuffers text cs ov).get ⟨i, hi1⟩ ≠ [] := by
    intro hnil
    apply hne
    rw [hgeti, hnil]
    rfl
  have hadj := List.chain'_iff_get.mp hchain i (by omega)
  obtain ⟨hnext_ne, hhead⟩ := hadj ⟨hov, hBine⟩
  have hgoodi := hgood ((chunkBuffers text cs ov).get ⟨i, hi1⟩)
    (List.get_mem (chunkBuffers text cs ov) i hi1)
  have hgoodi1 := hgood ((chunkBuffers text cs ov).get ⟨i + 1, hi2⟩)
    (List.get_mem (chunkBuffers text cs ov) (i + 1) hi2)
  have hrti : splitPar (joinPar ((chunkBuffers text cs ov).get ⟨i, hi1⟩)) =
      (chunkBuffers text cs ov).get ⟨i, hi1⟩ :=
    splitPar_joinPar _ hBine hgoodi.1 hgoodi.2
  have hrti1 : splitPar (joinPar ((chunkBuffers text cs ov).get ⟨i + 1, hi2⟩)) =
      (chunkBuffers text cs ov).get ⟨i + 1, hi2⟩ :=
    splitPar_joinPar _ hnext_ne hgoodi1.1 hgoodi1.2
  rw [hgeti, hgeti1]
  simp only [lastPar, firstPar]
  rw [hrti, hrti1]
  exact hhead.symm

/-- Witness for C4 (amended): a concrete three-paragraph text with
`overlap = 1` whose first two chunks share the boundary paragraph. -/
theorem chunk_overlap_correct_witness :
    (0 : Int) < 1 ∧
      (chunk_text (str "aaa\n\nbbb\n\nccc") 7 1).get ⟨0, by decide⟩ ≠ [] ∧
      lastPar ((chunk_text (str "aaa\n\nbbb\n\nccc") 7 1).get ⟨0, by decide⟩) =
        firstPar ((chunk_text (str "aaa\n\nbbb\n\nccc") 7 1).get ⟨1, by decide⟩) :=
  ⟨by decide, by decide,
    chunk_overlap_correct (str "aaa\n\nbbb\n\nccc") 7 1 (by decide) 0 (by decide) (by decide)⟩

/-- C5 counterexample: for the single oversized paragraph `"abc"` with
`chunk_size = 2` the chunks are `["", "abc"]`; concatenating their
paragraph sequences (overlap deduplication applied or not — both
`overlap = 0` and `overlap = 50` shown) does not reconstruct the original
paragraph sequence `["abc"]`, because of the extra empty chunk. -/
theorem chunk_reconstruct_cex :
    reconstruct 0 (chunk_text (str "abc") 2 0) ≠ splitPar (str "abc") ∧
      reconstruct 50 (chunk_text (str "abc") 2 50) ≠ splitPar (str "abc") := by decide

/-- C5 (amended): no chunk boundary splits inside a paragraph, and if the
first paragraph of the text fits within `chunk_size` (ruling out the
initial empty chunk of the counterexample), concatenating all chunks'
paragraph sequences — dropping the overlap-duplicated first paragraph of
every chunk after the first when `overlap > 0` — reconstructs the original
paragraph sequence of the text. -/
theorem chunk_reconstruct (text : PyStr) (cs ov : Int) (p0 : PyStr)
    (rest : List PyStr) (hsp : splitPar text = p0 :: rest)
    (hfit : (p0.length : Int) ≤ cs) :
    reconstruct ov (chunk_text text cs ov) = splitPar text := by
  have hstep : chunkBuffers text cs ov = bufLoop cs ov rest [] [p0] (0 + (p0.length : Int)) := by
    rw [chunkBuffers, hsp]
    simp only [bufLoop]
    rw [if_neg (by omega), List.nil_append]
  have hne : ∀ b ∈ chunkBuffers text cs ov, b ≠ [] := by
    rw [hstep]
    apply bufLoop_ne_nil
    · simp
    · intro b hb
      simp at hb
  have hgood : ∀ b ∈ chunkBuffers text cs ov, goodBuf b := by
    apply bufLoop_good
    · intro x hx
      exact hasNL2_splitPar text x (by simpa using hx)
    · intro x hx
      exact splitPar_dropLast_getLast text x (by simpa using hx)
    · intro b hb
      simp at hb
  have hrt : ∀ b ∈ chunkBuffers text cs ov, splitPar (joinPar b) = b := by
    intro b hb
    exact splitPar_joinPar b (hne b hb) (hgood b hb).1 (hgood b hb).2
  rw [chunk_text_eq_buffers, reconstruct_map_joinPar ov _ hrt, hstep,
    bufLoop_dedup cs ov rest [] [p0] _ (by simp)]
  simp [dedupBufs, hsp]

/-- Witness for C5 (amended) at a concrete three-paragraph text with
positive overlap. -/
theorem chunk_reconstruct_witness :
    splitPar (str "aaa\n\nbbb\n\nccc") = str "aaa" :: [str "bbb", str "ccc"] ∧
      ((str "aaa").length : Int) ≤ 7 ∧
      reconstruct 1 (chunk_text (str "aaa\n\nbbb\n\nccc") 7 1) =
        splitPar (str "aaa\n\nbbb\n\nccc") :=
  ⟨by decide, by decide,
    chunk_reconstruct (str "aaa\n\nbbb\n\nccc") 7 1 (str "aaa") [str "bbb", str "ccc"]
      (by decide) (by decide)⟩

theorem storeAdd_cons (store : List Record) (r : Record) (rs : List Record) :
    storeAdd store (r :: rs) = storeAdd (upsertOne store r) rs := rfl

theorem upsertOne_present (store : List Record) (r : Record)
    (h : r.id ∈ idsOf store) :
    upsertOne store r = store.map (fun e => if e.id = r.id then r else e) := by
  unfold upsertOne
  rw [if_pos ?present]
  case present =>
    simp only [idsOf, List.mem_map] at h
    obtain ⟨e, he, heid⟩ := h
    exact List.any_eq_true.mpr ⟨e, he, by simp [heid]⟩

theorem upsertOne_ids_of_mem (store : List Record) (r : Record)
    (h : r.id ∈ idsOf store) :
    idsOf (upsertOne store r) = idsOf store ∧
      (upsertOne store r).length = store.length := by
  rw [upsertOne_present store r h]
  constructor
  · simp only [idsOf, List.map_map]
    apply List.map_congr_left
    intro e _
    by_cases heq : e.id = r.id
    · simp [Function.comp_apply, heq]
    · simp [Function.comp_apply, heq]
  · simp

theorem upsertOne_absent (store : List Record) (r : Record)
    (h : r.id ∉ idsOf store) : upsertOne store r = store ++ [r] := by
  unfold upsertOne
  rw [if_neg ?absent]
  case absent =>
    intro hany
    obtain ⟨e, he, heq⟩ := List.any_eq_true.mp hany
    simp only [decide_eq_true_eq] at heq
    exact h (by simp only [idsOf, List.mem_map]; exact ⟨e, he, heq⟩)

theorem mem_idsOf_upsertOne (store : List Record) (r : Record) :
    r.id ∈ idsOf (upsertOne store r) := by
  by_cases h : r.id ∈ idsOf store
  · rw [(upsertOne_ids_of_mem store r h).1]
    exact h
  · rw [upsertOne_absent store r h]
    simp [idsOf]

theorem idsOf_upsertOne_mono (store : List Record) (r : Record) (x : PyStr)
    (h : x ∈ idsOf store) : x ∈ idsOf (upsertOne store r) := by
  by_cases hm : r.id ∈ idsOf store
  · rw [(upsertOne_ids_of_mem store r hm).1]
    exact h
  · rw [upsertOne_absent store r hm]
    simp only [idsOf, List.map_append]
    exact List.mem_append_left _ h

theorem idsOf_storeAdd_mono (recs : List Record) :
    ∀ store x, x ∈ idsOf store → x ∈ idsOf (storeAdd store recs) := by
  induction recs with
  | nil => intro store x h; exact h
  | cons r rs ih =>
    intro store x h
    rw [storeAdd_cons]
    exact ih _ _ (idsOf_upsertOne_mono store r x h)

/-- Every id of the added batch is present in the store afterwards. -/
theorem idsOf_subset_storeAdd (recs : List Record) :
    ∀ store, ∀ r ∈ recs, r.id ∈ idsOf (storeAdd store recs) := by
  induction recs with
  | nil =>
    intro store r h
    simp at h
  | cons r0 rs ih =>
    intro store r h
    rw [storeAdd_cons]
    rcases List.mem_cons.mp h with h | h
    · subst h
      exact idsOf_storeAdd_mono rs _ _ (mem_idsOf_upsertOne store r)
    · exact ih _ r h

/-- Adding a batch whose ids are all already present changes neither the id
list nor the record count: every add is an overwrite. -/
theorem storeAdd_all_overwrites (recs : List Record) :
    ∀ store, (∀ r ∈ recs, r.id ∈ idsOf store) →
      idsOf (storeAdd store recs) = idsOf store ∧
        (storeAdd store recs).length = store.length := by
  induction recs with
  | nil => intro store _; exact ⟨rfl, rfl⟩
  | cons r rs ih =>
    intro store h
    have h0 := h r (by simp)
    have hups := upsertOne_ids_of_mem store r h0
    have hrest : ∀ x ∈ rs, x.id ∈ idsOf (upsertOne store r) := by
      intro x hx
      rw [hups.1]
      exact h x (by simp [hx])
    obtain ⟨hids, hlen⟩ := ih (upsertOne store r) hrest
    rw [storeAdd_cons]
    exact ⟨hids.trans hups.1, hlen.trans hups.2⟩

theorem find_map_overwrite (s : List Record) (r : Record) (h : r.id ∈ idsOf s) :
    (s.map (fun e => if e.id = r.id then r else e)).find?
      (fun e => e.id = r.id) = some r := by
  induction s with
  | nil => simp [idsOf] at h
  | cons e s' ih =>
    simp only [List.map_cons]
    by_cases he : e.id = r.id
    · rw [if_pos he]
      simp
    · rw [if_neg he]
      rw [List.find?_cons_of_neg _ (by simp [he])]
      apply ih
      simp only [idsOf, List.map_cons, List.mem_cons] at h
      rcases h with h | h
      · exact absurd h.symm he
      · exact h

/-- Upserting an existing id overwrites: the count is unchanged and a
lookup by that id now returns the new record. -/
theorem upsertOne_overwrites (s : List Record) (r : Record)
    (h : r.id ∈ idsOf s) :
    (upsertOne s r).length = s.length ∧
      (upsertOne s r).find? (fun e => e.id = r.id) = some r := by
  refine ⟨(upsertOne_ids_of_mem s r h).2, ?_⟩
  rw [upsertOne_present s r h]
  exact find_map_overwrite s r h

/-- C1: ingesting the same document set twice with unchanged chunking
parameters (the defaults baked into `process_documents`) leaves the store's
record count and id list unchanged after the second call, and re-adding a
record under an existing id overwrites the prior record rather than adding
a duplicate.  Both runs compute the same deterministic ids because the
pipeline is a pure function of the documents.  The store's
overwrite-on-existing-id `add` is modelled from the spec (§4.3). -/
theorem ingest_idempotent (embedB : List PyStr → Except Unit (List Vec))
    (docs : List (PyStr × PyStr)) (store : List Record) (vecs : List Vec)
    (hok : embedB ((buildBatch docs).map (fun b => b.2.1)) = Except.ok vecs) :
    storeCount (process_documents embedB docs
        (process_documents embedB docs store).2).2 =
      storeCount (process_documents embedB docs store).2 ∧
    idsOf (process_documents embedB docs
        (process_documents embedB docs store).2).2 =
      idsOf (process_documents embedB docs store).2 ∧
    (∀ (s : List Record) (r : Record), r.id ∈ idsOf s →
      (upsertOne s r).length = s.length ∧
        (upsertOne s r).find? (fun e => e.id = r.id) = some r) := by
  refine ⟨?count, ?ids, fun s r h => upsertOne_overwrites s r h⟩
  all_goals
    by_cases hd : docs.isEmpty
    case pos =>
      simp [process_documents, hd]
    case neg =>
      simp only [process_documents, hd, if_neg, Bool.false_eq_true,
        not_false_eq_true, hok]
      have hall : ∀ r ∈ ((buildBatch docs).zip vecs).map
          (fun bv => Record.mk bv.1.1 bv.2 bv.1.2.1 bv.1.2.2),
          r.id ∈ idsOf (storeAdd store (((buildBatch docs).zip vecs).map
            (fun bv => Record.mk bv.1.1 bv.2 bv.1.2.1 bv.1.2.2))) :=
        fun r hr => idsOf_subset_storeAdd _ store r hr
      first
        | exact (storeAdd_all_overwrites _ _ hall).2
        | exact (storeAdd_all_overwrites _ _ hall).1

/-- Witness for C1: one concrete document ingested twice into an initially
empty store with a constant embedder. -/
theorem ingest_idempotent_witness :
    (fun ts : List PyStr => (Except.ok (ts.map (fun _ => ([0] : Vec))) : Except Unit (List Vec)))
        ((buildBatch [(str "a.txt", str "hello")]).map (fun b => b.2.1)) =
      Except.ok [[0]] ∧
    storeCount (process_documents
        (fun ts => Except.ok (ts.map (fun _ => [0]))) [(str "a.txt", str "hello")]
        (process_documents (fun ts => Except.ok (ts.map (fun _ => [0])))
          [(str "a.txt", str "hello")] []).2).2 =
      storeCount (process_documents
        (fun ts => Except.ok (ts.map (fun _ => [0]))) [(str "a.txt", str "hello")] []).2 :=
  ⟨rfl,
    (ingest_idempotent (fun ts => Except.ok (ts.map (fun _ => [0])))
      [(str "a.txt", str "hello")] [] [[0]] rfl).1⟩

/-- C7: if the batch embedding call fails during ingestion, the whole
ingestion call fails and the store is returned unchanged: the single
store-add write happens only after the one batch embedding call succeeds
(source lines 123-134). -/
theorem ingest_atomic_on_embed_failure (embedB : List PyStr → Except Unit (List Vec))
    (docs : List (PyStr × PyStr)) (store : List Record) (hne : ¬docs.isEmpty)
    (hfail : embedB ((buildBatch docs).map (fun b => b.2.1)) = Except.error ()) :
    process_documents embedB docs store = (Except.error (), store) := by
  simp [process_documents, hne, hfail]

/-- Witness for C7: a failing embedder leaves a concrete store untouched. -/
theorem ingest_atomic_on_embed_failure_witness :
    ¬([(str "a.txt", str "hi")] : List (PyStr × PyStr)).isEmpty = true ∧
    process_documents (fun _ : List PyStr => (Except.error () : Except Unit (List Vec)))
        [(str "a.txt", str "hi")]
        [Record.mk (str "x_0") [7] (str "old") (ChunkMeta.mk (str "x.txt") 0)] =
      (Except.error (),
        [Record.mk (str "x_0") [7] (str "old") (ChunkMeta.mk (str "x.txt") 0)]) :=
  ⟨by decide,
    ingest_atomic_on_embed_failure (fun _ => Except.error ()) [(str "a.txt", str "hi")]
      [Record.mk (str "x_0") [7] (str "old") (ChunkMeta.mk (str "x.txt") 0)]
      (by decide) rfl⟩

/-- C6: search returns at most `k` results, ordered by non-decreasing
distance to the query vector, with ties broken stably by insertion order,
and the query service forwards the ranked sequence unchanged as
`(id, text, metadata, distance)` records.  The store's nearest-neighbour
search is modelled from the spec (§4.3); the 1:1 in-order formatting is the
source's result loop (lines 158-168). -/
theorem search_ranked (embedOne : PyStr → Vec) (store : List Record)
    (question : PyStr) (k : Int) :
    (storeSearch store (embedOne question) k).length ≤ k.toNat ∧
    List.Pairwise (fun a b : Nat × Record =>
        sqDist (embedOne question) a.2.vec ≤ sqDist (embedOne question) b.2.vec)
      (storeSearch store (embedOne question) k) ∧
    List.Pairwise (fun a b : Nat × Record =>
        sqDist (embedOne question) a.2.vec = sqDist (embedOne question) b.2.vec →
          a.1 ≤ b.1)
      (storeSearch store (embedOne question) k) ∧
    (List.insertionSort (rankLe (embedOne question)) store.enum).Perm store.enum ∧
    query embedOne store question k =
      (storeSearch store (embedOne question) k).map
        (fun ir => QueryResult.mk ir.2.id ir.2.text ir.2.meta
          (sqDist (embedOne question) ir.2.vec)) := by
  have hsorted : List.Pairwise (rankLe (embedOne question))
      (storeSearch store (embedOne question) k) :=
    (List.sorted_insertionSort (rankLe (embedOne question)) store.enum).sublist
      (List.take_sublist _ _)
  refine ⟨List.length_take_le _ _, ?_, ?_, List.perm_insertionSort _ _, rfl⟩
  · apply hsorted.imp
    intro a b hab
    rcases hab with h | ⟨h, _⟩
    · exact le_of_lt h
    · exact le_of_eq h
  · apply hsorted.imp
    intro a b hab heq
    rcases hab with h | ⟨_, hn⟩
    · rw [heq] at h
      exact absurd h (lt_irrefl _)
    · exact hn

/-- C8: querying an empty store returns the empty sequence (and, the query
function being total, raises no error), for every query text and every
positive `k`.  The store's empty-store search behaviour is modelled from
the spec (§4.3). -/
theorem query_empty_store (embedOne : PyStr → Vec) (question : PyStr) (k : Int)
    (_hk : 0 < k) : query embedOne [] question k = [] := by
  simp [query, storeSearch, List.insertionSort]

/-- Witness for C8 at `k = 3`. -/
theorem query_empty_store_witness :
    (0 : Int) < 3 ∧ query (fun _ => []) [] (str "hi") 3 = [] :=
  ⟨by decide, query_empty_store (fun _ => []) (str "hi") 3 (by decide)⟩

/-- C9 counterexample: the engine's `query` performs no validation of
`n_results`: with `k = 0` and `k = -1` on a nonempty store it returns a
normal (empty) result sequence rather than failing with an
`InvalidArgument` error. -/
theorem query_nonpositive_k_cex :
    query (fun _ => [0])
        [Record.mk (str "a_0") [0] (str "t") (ChunkMeta.mk (str "a.txt") 0)]
        (str "hi") 0 = [] ∧
      query (fun _ => [0])
        [Record.mk (str "a_0") [0] (str "t") (ChunkMeta.mk (str "a.txt") 0)]
        (str "hi") (-1) = [] := by decide

/-- C9 (amended): the function `query` does not validate `n_results`: a non-positive `k`
is forwarded unchanged to the store's search (source lines 153-156), which
truncates to `k.toNat = 0` results, so the call returns the empty sequence
instead of failing with `InvalidArgument`. -/
theorem query_nonpositive_k (embedOne : PyStr → Vec) (store : List Record)
    (question : PyStr) (k : Int) (hk : k ≤ 0) :
    query embedOne store question k = [] := by
  unfold query storeSearch
  rw [show k.toNat = 0 by omega]
  simp

/-- Witness for C9 (amended) at `k = 0` on a nonempty store. -/
theorem query_nonpositive_k_witness :
    (0 : Int) ≤ 0 ∧
      query (fun _ => [0])
        [Record.mk (str "a_0") [0] (str "t") (ChunkMeta.mk (str "a.txt") 0)]
        (str "hi") 0 = [] :=
  ⟨by decide,
    query_nonpositive_k (fun _ => [0])
      [Record.mk (str "a_0") [0] (str "t") (ChunkMeta.mk (str "a.txt") 0)]
      (str "hi") 0 (by decide)⟩

end CodeBridge
